import Mathlib

/-!
A verification development for the multi-RPC gas soundness checker
(`app.py`).  The Python program samples recent base fees from several
RPC endpoints, summarizes each endpoint, groups summaries by chain id,
computes a per-chain consensus median and flags outliers.

The shallow embedding below models:
* Python float arithmetic by exact rationals.  Because the standard
  rational operations of the library are irreducible, the arithmetic
  used inside program definitions is written with executable
  equivalents (`qAdd`, `qSub`, `qMul`, `qDiv`, `qAbs`, `qMin`, `qMax`),
  each proved equal to the standard operation;
* Python `round` (banker's rounding) on exact rationals: `pyRound`;
* Python `statistics.median`, `min`, `max` over lists: `pyMedian`,
  `pyMin`, `pyMax`;
* the block-number walk of `range(head, start - 1, -step)`: `rangeGo` /
  `visitedBlocks`;
* `sample_base_fees`, `analyze_endpoint`, `pct_diff`, `group_by_chain`
  from `app.py`, over an abstract, deterministic `Endpoint` block
  source (`blockAt n = none` models a raised exception on
  `w3.eth.get_block(n)`; a `Block` whose fee field is `none` models a
  block dict without `baseFeePerGas`);
* the `main` driver's per-endpoint loop and exit conditions: `runMain`
  (`EpOutcome.connectFail` models `w3.is_connected()` returning false,
  which makes `connect` call `sys.exit(1)`; `EpOutcome.analyzeFail`
  models any ordinary exception escaping `analyze_endpoint`, which
  `main` catches and skips).
-/

/-- Executable addition on `ℚ` (equal to `+`, see `qAdd_eq`). -/
def qAdd (a b : ℚ) : ℚ := Rat.divInt (a.num * b.den + b.num * a.den) (a.den * b.den)

/-- Executable subtraction on `ℚ` (equal to `-`, see `qSub_eq`). -/
def qSub (a b : ℚ) : ℚ := Rat.divInt (a.num * b.den - b.num * a.den) (a.den * b.den)

/-- Executable multiplication on `ℚ` (equal to `*`, see `qMul_eq`). -/
def qMul (a b : ℚ) : ℚ := Rat.divInt (a.num * b.num) (a.den * b.den)

/-- Executable division on `ℚ` (equal to `/`, with `qDiv a 0 = 0`
like the library's division; see `qDiv_eq`). -/
def qDiv (a b : ℚ) : ℚ := Rat.divInt (a.num * b.den) (a.den * b.num)

/-- Executable absolute value on `ℚ` (Python `abs`). -/
def qAbs (q : ℚ) : ℚ := if q < 0 then -q else q

/-- Executable binary minimum (Python `min` on two values). -/
def qMin (a b : ℚ) : ℚ := if b < a then b else a

/-- Executable binary maximum (Python `max` on two values). -/
def qMax (a b : ℚ) : ℚ := if a < b then b else a

/-- Floor of a rational, written executably as in `Rat.floor_def`
(`num / den`, integer division). -/
def ratFloor (q : ℚ) : ℤ := q.num / q.den

/-- Round a rational to the nearest integer, ties to even: the rounding
of Python's `round` builtin (on exact decimal inputs). -/
def roundHalfEven (q : ℚ) : ℤ :=
  let f : ℤ := ratFloor q
  let r : ℚ := qSub q (f : ℚ)
  if r < mkRat 1 2 then f
  else if mkRat 1 2 < r then f + 1
  else if f % 2 = 0 then f else f + 1

/-- `pyRound nd q` models Python `round(q, nd)` on exact rationals. -/
def pyRound (nd : ℕ) (q : ℚ) : ℚ :=
  qDiv (roundHalfEven (qMul q ((10 ^ nd : ℤ) : ℚ)) : ℚ) ((10 ^ nd : ℤ) : ℚ)

/-- Python `min(l)` for a nonempty list (0 as an unused default). -/
def pyMin : List ℚ → ℚ
  | [] => 0
  | x :: xs => xs.foldl qMin x

/-- Python `max(l)` for a nonempty list (0 as an unused default). -/
def pyMax : List ℚ → ℚ
  | [] => 0
  | x :: xs => xs.foldl qMax x

/-- Python `statistics.median(l)` for a nonempty list: sort, take the
middle element for odd length, the mean of the two middle elements for
even length. -/
def pyMedian (l : List ℚ) : ℚ :=
  let s := List.insertionSort (· ≤ ·) l
  let n := l.length
  if n % 2 = 1 then s.getD (n / 2) 0
  else qDiv (qAdd (s.getD (n / 2 - 1) 0) (s.getD (n / 2) 0)) 2

/-- The hardcoded chain-id lookup table `NETWORKS` of `app.py`. -/
def NETWORKS : List (ℤ × String) :=
  [(1, "Ethereum Mainnet"), (11155111, "Sepolia Testnet"), (10, "Optimism"),
   (137, "Polygon"), (42161, "Arbitrum One"), (8453, "Base")]

/-- `network_name` from `app.py`. -/
def network_name (chain_id : ℤ) : String :=
  (NETWORKS.lookup chain_id).getD
    ("Unknown (chainId " ++ toString chain_id ++ ")")

/-- `pct_diff` from `app.py`. -/
def pct_diff (a b : ℚ) : ℚ :=
  if b = 0 then 0 else qMul (qDiv (qSub a b) b) 100

/-- A block as returned by `w3.eth.get_block`: only the `baseFeePerGas`
field matters to the core; `none` models a block dict without the
field. The fee is in wei. -/
structure Block where
  baseFeePerGas : Option ℕ
deriving DecidableEq

/-- An abstract, deterministic RPC endpoint (the Block Source
collaborator): chain id, current height, per-block fetch result
(`none` = the fetch raises), client version string. -/
structure Endpoint where
  rpcUrl : String
  chainId : ℤ
  blockNumber : ℕ
  blockAt : ℕ → Option Block
  clientVersion : String

/-- One endpoint summary record (the dict built by `analyze_endpoint`,
with the two fields later written by `group_by_chain` initialized to
`0` / `false`). -/
structure Summary where
  rpcUrl : String
  chainId : ℤ
  network : String
  clientVersion : String
  head : ℕ
  start : ℕ
  requestedSpan : ℕ
  step : ℕ
  sampledBlocks : ℕ
  baseFeeMedianGwei : ℚ
  baseFeeMinGwei : ℚ
  baseFeeMaxGwei : ℚ
  headBaseFeeGwei : Option ℚ
  deviationPct : ℚ
  isOutlier : Bool
deriving DecidableEq

/-- `Web3.from_wei(wei, "gwei")` as an exact rational. -/
def weiToGwei (wei : ℕ) : ℚ := Rat.divInt (wei : ℤ) 1000000000

/-- The block numbers visited by `for n in range(cur, lo - 1, -step)`:
emit `cur` while `cur ≥ lo`, decreasing by `step`.  Structural fuel
(`fuel > cur` always suffices, since `step ≥ 1` strictly decreases
`cur`). -/
def rangeGo (lo step : ℕ) : ℕ → ℕ → List ℕ
  | 0, _ => []
  | fuel + 1, cur =>
    if cur < lo then []
    else cur :: (if cur < lo + step then [] else rangeGo lo step fuel (cur - step))

/-- The block numbers visited by `range(head, start - 1, -step)` in
`sample_base_fees`. -/
def visitedBlocks (start step head : ℕ) : List ℕ :=
  if step = 0 then [] else rangeGo start step (head + 1) head

/-- The body of the sampling loop of `sample_base_fees`: a failed fetch
(`none`, a raised exception) or a zero/absent `baseFeePerGas` is
skipped; otherwise the fee (in gwei) is appended and the counter
incremented. -/
def sampleStep (blockAt : ℕ → Option Block) (acc : List ℚ × ℕ) (n : ℕ) :
    List ℚ × ℕ :=
  match blockAt n with
  | none => acc
  | some blk =>
    let bf_wei := blk.baseFeePerGas.getD 0
    if bf_wei = 0 then acc
    else (acc.1 ++ [weiToGwei bf_wei], acc.2 + 1)

/-- The sampling loop of `sample_base_fees` over the visited block
numbers, starting from `base_fees = []`, `sampled = 0`. -/
def sampleFold (blockAt : ℕ → Option Block) (visits : List ℕ) : List ℚ × ℕ :=
  visits.foldl (sampleStep blockAt) ([], 0)

/-- `sample_base_fees` from `app.py`: returns
`(base_fees, head, start, sampled)`. -/
def sample_base_fees (e : Endpoint) (blocks step : ℕ) :
    List ℚ × ℕ × ℕ × ℕ :=
  let head := e.blockNumber
  let start := head + 1 - blocks
  let p := sampleFold e.blockAt (visitedBlocks start step head)
  (p.1, head, start, p.2)

/-- `analyze_endpoint` from `app.py`.  The separate head-block fetch is
`blockAt head`; if it raises (`none`) the head fee stays `None`,
otherwise it is the (possibly zero) fee converted to gwei.  Median,
min and max are over the sampled fees, `0.0` when there are none; the
three statistics and the head fee are rounded to 3 decimals. -/
def analyze_endpoint (e : Endpoint) (blocks step : ℕ) : Summary :=
  let chain_id := e.chainId
  let r := sample_base_fees e blocks step
  let base_fees := r.1
  let head := r.2.1
  let start := r.2.2.1
  let sampled := r.2.2.2
  let head_bf_gwei : Option ℚ :=
    (e.blockAt head).map (fun blk => weiToGwei (blk.baseFeePerGas.getD 0))
  let med_bf := if base_fees.isEmpty then 0 else pyMedian base_fees
  let min_bf := if base_fees.isEmpty then 0 else pyMin base_fees
  let max_bf := if base_fees.isEmpty then 0 else pyMax base_fees
  { rpcUrl := e.rpcUrl
    chainId := chain_id
    network := network_name chain_id
    clientVersion := e.clientVersion
    head := head
    start := start
    requestedSpan := blocks
    step := step
    sampledBlocks := sampled
    baseFeeMedianGwei := pyRound 3 med_bf
    baseFeeMinGwei := pyRound 3 min_bf
    baseFeeMaxGwei := pyRound 3 max_bf
    headBaseFeeGwei := head_bf_gwei.map (pyRound 3)
    deviationPct := 0
    isOutlier := false }

/-- The per-chain consensus of `group_by_chain`: the member medians
that are `> 0`, reduced by `median`, or `0.0` when none qualify. -/
def groupConsensus (members : List Summary) : ℚ :=
  let med_values := (members.map (·.baseFeeMedianGwei)).filter (fun m => decide (0 < m))
  if med_values.isEmpty then 0 else pyMedian med_values

/-- The deviation `group_by_chain` computes for one member before any
rounding: `pct_diff` of the member median against the group median
when both are positive, `0.0` otherwise. -/
def rawDeviation (memberMedian consensus : ℚ) : ℚ :=
  if 0 < consensus ∧ 0 < memberMedian then pct_diff memberMedian consensus else 0

/-- The annotation `group_by_chain` writes into one member summary:
`deviationPct` (rounded to 2 decimals) and `isOutlier`
(`abs(dev) >= tolerance_pct`, on the unrounded deviation). -/
def classifyEp (g_med tolerance_pct : ℚ) (ep : Summary) : Summary :=
  let dev := rawDeviation ep.baseFeeMedianGwei g_med
  { ep with deviationPct := pyRound 2 dev,
            isOutlier := decide (tolerance_pct ≤ qAbs dev) }

/-- `groups.setdefault(cid, …); groups[cid]["endpoints"].append(ep)`
over an insertion-ordered association list. -/
def addToGroup (groups : List (ℤ × List Summary)) (cid : ℤ) (ep : Summary) :
    List (ℤ × List Summary) :=
  match groups with
  | [] => [(cid, [ep])]
  | (c, ms) :: rest =>
    if c = cid then (c, ms ++ [ep]) :: rest
    else (c, ms) :: addToGroup rest cid ep

/-- One chain group of the output: the rounded group median and the
annotated member summaries. -/
structure ChainGroup where
  globalMedianBaseFeeGwei : ℚ
  endpoints : List Summary
deriving DecidableEq

/-- The first loop of `group_by_chain`: the insertion-ordered partition
of the summaries by chain id. -/
def rawGroups (endpoints : List Summary) : List (ℤ × List Summary) :=
  endpoints.foldl (fun g ep => addToGroup g ep.chainId ep) []

/-- `group_by_chain` from `app.py`: partition the summaries by chain id
(first-seen order), then per group compute the consensus and annotate
every member. -/
def group_by_chain (endpoints : List Summary) (tolerance_pct : ℚ) :
    List (ℤ × ChainGroup) :=
  (rawGroups endpoints).map (fun p =>
    let g_med := groupConsensus p.2
    (p.1, { globalMedianBaseFeeGwei := pyRound 3 g_med,
            endpoints := p.2.map (classifyEp g_med tolerance_pct) }))

/-- What can happen when `main` processes one RPC url:
`connectFail` = `w3.is_connected()` is false, so `connect` prints and
calls `sys.exit(1)` (a `SystemExit` that `main` re-raises);
`analyzeFail` = an ordinary exception escapes `analyze_endpoint` and is
caught; `ok s` = `analyze_endpoint` returns the summary `s`. -/
inductive EpOutcome where
  | connectFail
  | analyzeFail
  | ok (s : Summary)
deriving DecidableEq

/-- The observable result of `main`: configuration rejection
(`--blocks`/`--step` check, exit 1), empty endpoint list (exit 1),
abort via a propagated `SystemExit` from `connect` (exit 1), all
endpoints failed to analyze (exit 2), or a successful report. -/
inductive RunResult where
  | configErr
  | noEndpoints
  | aborted
  | allFailed
  | ok (groups : List (ℤ × ChainGroup))
deriving DecidableEq

/-- The summaries collected by `main`'s loop, in order. -/
def okSummaries : List EpOutcome → List Summary
  | [] => []
  | EpOutcome.ok s :: rest => s :: okSummaries rest
  | _ :: rest => okSummaries rest

/-- `main`'s per-endpoint loop: `connectFail` raises `SystemExit`,
which the loop re-raises (`none` = the whole run aborts);
`analyzeFail` is caught and skipped; `ok` appends the summary. -/
def runLoop : List EpOutcome → List Summary → Option (List Summary)
  | [], acc => some acc
  | EpOutcome.connectFail :: _, _ => none
  | EpOutcome.analyzeFail :: rest, acc => runLoop rest acc
  | EpOutcome.ok s :: rest, acc => runLoop rest (acc ++ [s])

/-- `main` from `app.py`, with every endpoint's fate abstracted as an
`EpOutcome`: the `--blocks > 0` / `--step > 0` check runs first, then
the empty-endpoint-list check, then the loop; an empty collected list
exits with code 2, otherwise `group_by_chain` produces the report. -/
def runMain (blocks step : ℤ) (tolerance_pct : ℚ) (rpcs : List EpOutcome) :
    RunResult :=
  if blocks ≤ 0 ∨ step ≤ 0 then RunResult.configErr
  else if rpcs.isEmpty then RunResult.noEndpoints
  else
    match runLoop rpcs [] with
    | none => RunResult.aborted
    | some [] => RunResult.allFailed
    | some eps => RunResult.ok (group_by_chain eps tolerance_pct)

/-! ### Derived definitions and concrete runs used by the theorems -/

/-- Association-list lookup into the groups dict (first match). -/
def findMembers : List (ℤ × List Summary) → ℤ → Option (List Summary)
  | [], _ => none
  | (c, ms) :: rest, cid => if c = cid then some ms else findMembers rest cid

/-- The summaries of one chain id, in input order. -/
def filterChain (eps : List Summary) (cid : ℤ) : List Summary :=
  eps.filter (fun e => decide (e.chainId = cid))

/-- The keys of the groups dict, in insertion order. -/
def keysOf (g : List (ℤ × List Summary)) : List ℤ := g.map Prod.fst

/-- Map a function over every member list of the groups dict. -/
def mapGrps (F : Summary → Summary) (g : List (ℤ × List Summary)) :
    List (ℤ × List Summary) :=
  g.map (fun p => (p.1, p.2.map F))

/-- The consensus of the group a given chain id belongs to, computed
from the full summary list. -/
def consensusOf (eps : List Summary) (cid : ℤ) : ℚ :=
  groupConsensus (filterChain eps cid)

/-- The summaries exactly as they stand after `group_by_chain` has run
over them once (the pass mutates the member dicts in place): every
summary carries the deviation and outlier flag computed against its
own chain's consensus, in the original order. -/
def annotateAll (eps : List Summary) (tol : ℚ) : List Summary :=
  eps.map (fun ep => classifyEp (consensusOf eps ep.chainId) tol ep)

/-- An endpoint whose every block carries a base fee of `n + 1` gwei at
height `n`; head is 8. -/
def epA : Endpoint :=
  { rpcUrl := "http://a.example", chainId := 1, blockNumber := 8,
    blockAt := fun n => some { baseFeePerGas := some (1000000000 * (n + 1)) },
    clientVersion := "geth/test" }

/-- An endpoint whose blocks never expose `baseFeePerGas`; head is 8. -/
def epZero : Endpoint :=
  { rpcUrl := "http://z.example", chainId := 1, blockNumber := 8,
    blockAt := fun _ => some { baseFeePerGas := none },
    clientVersion := "geth/test" }

/-- A concrete summary (endpoint `epA` analyzed over 4 blocks, stride 2). -/
def sA : Summary := analyze_endpoint epA 4 2

/-- An endpoint on chain 1 whose every block reports the given fee in
wei; head is 5. -/
def epFee (url : String) (wei : ℕ) : Endpoint :=
  { rpcUrl := url, chainId := 1, blockNumber := 5,
    blockAt := fun _ => some { baseFeePerGas := some wei },
    clientVersion := "geth/test" }

/-- Placeholder group (never selected in the concrete statements). -/
def dummyGroup : ℤ × ChainGroup :=
  (0, { globalMedianBaseFeeGwei := 0, endpoints := [] })

/-- Three endpoints on one chain with medians 100, 100 and 129.996
gwei. -/
def eps3 : List Summary :=
  [analyze_endpoint (epFee "http://u1.example" 100000000000) 1 1,
   analyze_endpoint (epFee "http://u2.example" 100000000000) 1 1,
   analyze_endpoint (epFee "http://u3.example" 129996000000) 1 1]

/-- The single chain group of the `eps3` run at tolerance 30. -/
def grp3 : ChainGroup := ((group_by_chain eps3 30).headD dummyGroup).2

/-- Member `i` of `grp3`. -/
def mem3 (i : ℕ) : Summary := grp3.endpoints.getD i sA

/-- One healthy and one zero-sample endpoint on one chain. -/
def eps4 : List Summary := [analyze_endpoint epA 4 2, analyze_endpoint epZero 4 2]

/-- The single chain group of the `eps4` run at tolerance 30. -/
def grp4 : ChainGroup := ((group_by_chain eps4 30).headD dummyGroup).2

/-- Member `i` of `grp4`. -/
def mem4 (i : ℕ) : Summary := grp4.endpoints.getD i sA

/-- The single chain group of the `eps4` run at tolerance 0. -/
def grp4z : ChainGroup := ((group_by_chain eps4 0).headD dummyGroup).2

/-- Member `i` of `grp4z`. -/
def mem4z (i : ℕ) : Summary := grp4z.endpoints.getD i sA

/-- Two endpoints on one chain with medians 0.001 and 0.002 gwei. -/
def eps5 : List Summary :=
  [analyze_endpoint (epFee "http://v1.example" 1000000) 1 1,
   analyze_endpoint (epFee "http://v2.example" 2000000) 1 1]

/-- The single chain group of the `eps5` run at tolerance 30. -/
def grp5 : ChainGroup := ((group_by_chain eps5 30).headD dummyGroup).2

/-! ### Bridges from the executable arithmetic to the standard one -/

theorem num_eq_mul_den (a : ℚ) : (a.num : ℚ) = a * a.den := by
  have ha : ((a.den : ℚ)) ≠ 0 := by exact_mod_cast a.den_nz
  exact (div_eq_iff ha).mp (Rat.num_div_den a)

theorem qAdd_eq (a b : ℚ) : qAdd a b = a + b := by
  have ha : ((a.den : ℚ)) ≠ 0 := by exact_mod_cast a.den_nz
  have hb : ((b.den : ℚ)) ≠ 0 := by exact_mod_cast b.den_nz
  unfold qAdd
  rw [Rat.divInt_eq_div]
  push_cast
  rw [div_eq_iff (mul_ne_zero ha hb), num_eq_mul_den a, num_eq_mul_den b]
  ring

theorem qSub_eq (a b : ℚ) : qSub a b = a - b := by
  have ha : ((a.den : ℚ)) ≠ 0 := by exact_mod_cast a.den_nz
  have hb : ((b.den : ℚ)) ≠ 0 := by exact_mod_cast b.den_nz
  unfold qSub
  rw [Rat.divInt_eq_div]
  push_cast
  rw [div_eq_iff (mul_ne_zero ha hb), num_eq_mul_den a, num_eq_mul_den b]
  ring

theorem qMul_eq (a b : ℚ) : qMul a b = a * b := by
  unfold qMul
  rw [Rat.divInt_eq_div]
  push_cast
  rw [← div_mul_div_comm, Rat.num_div_den, Rat.num_div_den]

theorem qDiv_eq (a b : ℚ) : qDiv a b = a / b := by
  unfold qDiv
  rw [Rat.divInt_eq_div]
  rcases eq_or_ne b 0 with hb0 | hb0
  · subst hb0; simp
  · have ha : ((a.den : ℚ)) ≠ 0 := by exact_mod_cast a.den_nz
    have hbn : ((b.num : ℚ)) ≠ 0 := by exact_mod_cast Rat.num_ne_zero.mpr hb0
    push_cast
    rw [div_eq_iff (mul_ne_zero ha hbn)]
    field_simp
    rw [num_eq_mul_den a, num_eq_mul_den b]
    ring

theorem qAbs_eq (q : ℚ) : qAbs q = |q| := by
  unfold qAbs
  rcases lt_or_le q 0 with h | h
  · simp [h, abs_of_neg h]
  · simp [not_lt.mpr h, abs_of_nonneg h]

theorem qMin_eq (a b : ℚ) : qMin a b = min a b := by
  unfold qMin
  rcases lt_or_le b a with h | h
  · simp [h, min_eq_right h.le]
  · simp [not_lt.mpr h, min_eq_left h]

theorem qMax_eq (a b : ℚ) : qMax a b = max a b := by
  unfold qMax
  rcases lt_or_le a b with h | h
  · simp [h, max_eq_right h.le]
  · simp [not_lt.mpr h, max_eq_left h]

theorem qMin_fun : qMin = min := funext fun a => funext fun b => qMin_eq a b

theorem qMax_fun : qMax = max := funext fun a => funext fun b => qMax_eq a b

theorem ratFloor_eq (q : ℚ) : ratFloor q = ⌊q⌋ := (Rat.floor_def).symm

theorem mkRat_half : (mkRat 1 2 : ℚ) = 1 / 2 := by
  rw [Rat.mkRat_eq_divInt, Rat.divInt_eq_div]
  norm_num

/-! ### Banker's rounding: bounds and monotonicity -/

theorem roundHalfEven_def (q : ℚ) :
    roundHalfEven q =
      if q - ⌊q⌋ < 1 / 2 then ⌊q⌋
      else if 1 / 2 < q - ⌊q⌋ then ⌊q⌋ + 1
      else if ⌊q⌋ % 2 = 0 then ⌊q⌋ else ⌊q⌋ + 1 := by
  simp only [roundHalfEven, qSub_eq, ratFloor_eq, mkRat_half]

theorem roundHalfEven_ge_floor (q : ℚ) : ⌊q⌋ ≤ roundHalfEven q := by
  rw [roundHalfEven_def]
  split_ifs <;> omega

theorem roundHalfEven_le_floor_add_one (q : ℚ) : roundHalfEven q ≤ ⌊q⌋ + 1 := by
  rw [roundHalfEven_def]
  split_ifs <;> omega

theorem roundHalfEven_mono {a b : ℚ} (hab : a ≤ b) :
    roundHalfEven a ≤ roundHalfEven b := by
  have hf : ⌊a⌋ ≤ ⌊b⌋ := Int.floor_le_floor hab
  rcases lt_or_eq_of_le hf with hlt | heq
  · calc roundHalfEven a ≤ ⌊a⌋ + 1 := roundHalfEven_le_floor_add_one a
    _ ≤ ⌊b⌋ := by omega
    _ ≤ roundHalfEven b := roundHalfEven_ge_floor b
  · rw [roundHalfEven_def, roundHalfEven_def, ← heq]
    have hr : a - ⌊a⌋ ≤ b - ⌊a⌋ := by linarith
    split_ifs with h1 h2 h3 h4 h5 h6 h7 <;> try omega
    all_goals (exfalso; rw [← heq] at *; linarith)

theorem roundHalfEven_zero : roundHalfEven 0 = 0 := by decide

/-! ### `pyRound`: standard form, monotonicity, zero -/

theorem pyRound_def (nd : ℕ) (q : ℚ) :
    pyRound nd q = (roundHalfEven (q * 10 ^ nd) : ℚ) / 10 ^ nd := by
  unfold pyRound
  rw [qDiv_eq, qMul_eq]
  push_cast
  ring_nf

theorem pyRound_mono (nd : ℕ) {a b : ℚ} (hab : a ≤ b) :
    pyRound nd a ≤ pyRound nd b := by
  rw [pyRound_def, pyRound_def]
  have hp : (0 : ℚ) < 10 ^ nd := by positivity
  apply div_le_div_of_nonneg_right ?_ hp.le
  exact_mod_cast roundHalfEven_mono (mul_le_mul_of_nonneg_right hab hp.le)

theorem pyRound_zero (nd : ℕ) : pyRound nd 0 = 0 := by
  rw [pyRound_def]
  norm_num [roundHalfEven_zero]

theorem pyRound_nonneg (nd : ℕ) {q : ℚ} (hq : 0 ≤ q) : 0 ≤ pyRound nd q := by
  have := pyRound_mono nd hq
  rwa [pyRound_zero] at this

/-! ### `pyMin`, `pyMax`, `pyMedian`: order facts -/

theorem qMin_le_left (a b : ℚ) : qMin a b ≤ a := by
  rw [qMin_eq]; exact min_le_left a b

theorem qMin_le_right (a b : ℚ) : qMin a b ≤ b := by
  rw [qMin_eq]; exact min_le_right a b

theorem left_le_qMax (a b : ℚ) : a ≤ qMax a b := by
  rw [qMax_eq]; exact le_max_left a b

theorem right_le_qMax (a b : ℚ) : b ≤ qMax a b := by
  rw [qMax_eq]; exact le_max_right a b

theorem foldl_qMin_le_init : ∀ (xs : List ℚ) (a : ℚ), xs.foldl qMin a ≤ a
  | [], a => le_refl a
  | y :: ys, a =>
    le_trans (foldl_qMin_le_init ys (qMin a y)) (qMin_le_left a y)

theorem foldl_qMin_le_mem : ∀ (xs : List ℚ) (a x : ℚ), x ∈ xs → xs.foldl qMin a ≤ x := by
  intro xs
  induction xs with
  | nil => intro a x hx; cases hx
  | cons y ys ih =>
    intro a x hx
    rcases List.mem_cons.mp hx with rfl | hx
    · exact le_trans (foldl_qMin_le_init ys (qMin a x)) (qMin_le_right a x)
    · exact ih (qMin a y) x hx

theorem init_le_foldl_qMax : ∀ (xs : List ℚ) (a : ℚ), a ≤ xs.foldl qMax a
  | [], a => le_refl a
  | y :: ys, a =>
    le_trans (left_le_qMax a y) (init_le_foldl_qMax ys (qMax a y))

theorem mem_le_foldl_qMax : ∀ (xs : List ℚ) (a x : ℚ), x ∈ xs → x ≤ xs.foldl qMax a := by
  intro xs
  induction xs with
  | nil => intro a x hx; cases hx
  | cons y ys ih =>
    intro a x hx
    rcases List.mem_cons.mp hx with rfl | hx
    · exact le_trans (right_le_qMax a x) (init_le_foldl_qMax ys (qMax a x))
    · exact ih (qMax a y) x hx

theorem pyMin_le {l : List ℚ} {x : ℚ} (hx : x ∈ l) : pyMin l ≤ x := by
  cases l with
  | nil => cases hx
  | cons y ys =>
    rcases List.mem_cons.mp hx with rfl | hx
    · exact foldl_qMin_le_init ys x
    · exact foldl_qMin_le_mem ys y x hx

theorem le_pyMax {l : List ℚ} {x : ℚ} (hx : x ∈ l) : x ≤ pyMax l := by
  cases l with
  | nil => cases hx
  | cons y ys =>
    rcases List.mem_cons.mp hx with rfl | hx
    · exact init_le_foldl_qMax ys x
    · exact mem_le_foldl_qMax ys y x hx

theorem sorted_getD_mem (l : List ℚ) (i : ℕ) (h : i < l.length) :
    (List.insertionSort (· ≤ ·) l).getD i 0 ∈ l := by
  have hperm := List.perm_insertionSort (· ≤ ·) l
  have hlen : (List.insertionSort (· ≤ ·) l).length = l.length := hperm.length_eq
  have hi : i < (List.insertionSort (· ≤ ·) l).length := by omega
  rw [List.getD_eq_getElem _ 0 hi]
  exact hperm.mem_iff.mp (List.getElem_mem hi)

theorem pyMedian_mem_bounds (l : List ℚ) (hl : l ≠ []) :
    pyMin l ≤ pyMedian l ∧ pyMedian l ≤ pyMax l := by
  have hn : 0 < l.length := List.length_pos.mpr hl
  unfold pyMedian
  by_cases hpar : l.length % 2 = 1
  · rw [if_pos hpar]
    have hmem := sorted_getD_mem l (l.length / 2) (by omega)
    exact ⟨pyMin_le hmem, le_pyMax hmem⟩
  · rw [if_neg hpar]
    rw [qDiv_eq, qAdd_eq]
    have hmem1 := sorted_getD_mem l (l.length / 2 - 1) (by omega)
    have hmem2 := sorted_getD_mem l (l.length / 2) (by omega)
    have h1 := pyMin_le hmem1
    have h2 := pyMin_le hmem2
    have h3 := le_pyMax hmem1
    have h4 := le_pyMax hmem2
    constructor <;> linarith

theorem pyMedian_pos (l : List ℚ) (hl : l ≠ []) (hpos : ∀ x ∈ l, 0 < x) :
    0 < pyMedian l := by
  have hn : 0 < l.length := List.length_pos.mpr hl
  unfold pyMedian
  by_cases hpar : l.length % 2 = 1
  · rw [if_pos hpar]
    exact hpos _ (sorted_getD_mem l (l.length / 2) (by omega))
  · rw [if_neg hpar]
    rw [qDiv_eq, qAdd_eq]
    have h1 := hpos _ (sorted_getD_mem l (l.length / 2 - 1) (by omega))
    have h2 := hpos _ (sorted_getD_mem l (l.length / 2) (by omega))
    linarith

theorem pyMedian_nonneg (l : List ℚ) (hl : l ≠ []) (hpos : ∀ x ∈ l, 0 ≤ x) :
    0 ≤ pyMedian l := by
  have hn : 0 < l.length := List.length_pos.mpr hl
  unfold pyMedian
  by_cases hpar : l.length % 2 = 1
  · rw [if_pos hpar]
    exact hpos _ (sorted_getD_mem l (l.length / 2) (by omega))
  · rw [if_neg hpar]
    rw [qDiv_eq, qAdd_eq]
    have h1 := hpos _ (sorted_getD_mem l (l.length / 2 - 1) (by omega))
    have h2 := hpos _ (sorted_getD_mem l (l.length / 2) (by omega))
    linarith

/-! ### The sampling loop: the counter equals the number of kept fees -/

theorem sampleStep_count (blockAt : ℕ → Option Block) (acc : List ℚ × ℕ) (n : ℕ)
    (h : acc.2 = acc.1.length) :
    (sampleStep blockAt acc n).2 = (sampleStep blockAt acc n).1.length := by
  unfold sampleStep
  cases blockAt n with
  | none => exact h
  | some blk =>
    dsimp only
    by_cases hz : blk.baseFeePerGas.getD 0 = 0
    · simp only [hz, if_pos rfl]
      exact h
    · rw [if_neg hz]
      simp [h]

theorem foldl_sampleStep_count (blockAt : ℕ → Option Block) :
    ∀ (visits : List ℕ) (acc : List ℚ × ℕ), acc.2 = acc.1.length →
      (visits.foldl (sampleStep blockAt) acc).2 =
        (visits.foldl (sampleStep blockAt) acc).1.length := by
  intro visits
  induction visits with
  | nil => intro acc h; exact h
  | cons v vs ih =>
    intro acc h
    exact ih (sampleStep blockAt acc v) (sampleStep_count blockAt acc v h)

theorem sampleFold_count (blockAt : ℕ → Option Block) (visits : List ℕ) :
    (sampleFold blockAt visits).2 = (sampleFold blockAt visits).1.length :=
  foldl_sampleStep_count blockAt visits ([], 0) rfl

theorem sample_base_fees_count (e : Endpoint) (blocks step : ℕ) :
    (sample_base_fees e blocks step).2.2.2 = (sample_base_fees e blocks step).1.length :=
  sampleFold_count e.blockAt _

/-! ### The visited block numbers -/

theorem rangeGo_mem (lo step : ℕ) (hs : 0 < step) :
    ∀ (fuel cur : ℕ), cur < fuel →
      ∀ n, n ∈ rangeGo lo step fuel cur ↔ (lo ≤ n ∧ ∃ k, n + k * step = cur) := by
  intro fuel
  induction fuel with
  | zero => intro cur h; omega
  | succ fuel ih =>
    intro cur hcur n
    show n ∈ (if cur < lo then []
      else cur :: (if cur < lo + step then [] else rangeGo lo step fuel (cur - step))) ↔ _
    by_cases h1 : cur < lo
    · rw [if_pos h1]
      simp only [List.not_mem_nil, false_iff]
      rintro ⟨hlo, k, hk⟩
      have hle : n ≤ cur := Nat.le.intro hk
      omega
    · rw [if_neg h1]
      by_cases h2 : cur < lo + step
      · rw [if_pos h2]
        simp only [List.mem_singleton]
        constructor
        · rintro rfl
          exact ⟨by omega, 0, by omega⟩
        · rintro ⟨hlo, k, hk⟩
          cases k with
          | zero => omega
          | succ k =>
            rw [Nat.succ_mul] at hk
            exfalso
            generalize k * step = m at hk
            omega
      · rw [if_neg h2]
        have hrec : cur - step < fuel := by omega
        rw [List.mem_cons, ih (cur - step) hrec n]
        constructor
        · rintro (rfl | ⟨hlo, k, hk⟩)
          · exact ⟨by omega, 0, by omega⟩
          · refine ⟨hlo, k + 1, ?_⟩
            rw [Nat.succ_mul]
            generalize k * step = m at hk
            omega
        · rintro ⟨hlo, k, hk⟩
          cases k with
          | zero => left; omega
          | succ k =>
            right
            refine ⟨hlo, k, ?_⟩
            rw [Nat.succ_mul] at hk
            generalize k * step = m at hk
            omega

theorem visitedBlocks_mem (start step head : ℕ) (hs : 0 < step) (n : ℕ) :
    n ∈ visitedBlocks start step head ↔ (start ≤ n ∧ ∃ k, n + k * step = head) := by
  unfold visitedBlocks
  rw [if_neg (by omega : ¬ step = 0)]
  exact rangeGo_mem start step hs (head + 1) head (by omega) n

/-! ### The driver loop -/

theorem runLoop_eq_none : ∀ (rpcs : List EpOutcome) (acc : List Summary),
    EpOutcome.connectFail ∈ rpcs → runLoop rpcs acc = none := by
  intro rpcs
  induction rpcs with
  | nil => intro acc h; cases h
  | cons r rest ih =>
    intro acc h
    cases r with
    | connectFail => rfl
    | analyzeFail =>
      exact ih acc (by simpa using h)
    | ok s =>
      exact ih (acc ++ [s]) (by simpa using h)

theorem runLoop_eq_some : ∀ (rpcs : List EpOutcome) (acc : List Summary),
    EpOutcome.connectFail ∉ rpcs →
    runLoop rpcs acc = some (acc ++ okSummaries rpcs) := by
  intro rpcs
  induction rpcs with
  | nil => intro acc _; simp [runLoop, okSummaries]
  | cons r rest ih =>
    intro acc h
    cases r with
    | connectFail => exact absurd (List.mem_cons_self _ _) h
    | analyzeFail =>
      rw [show runLoop (EpOutcome.analyzeFail :: rest) acc = runLoop rest acc from rfl]
      rw [ih acc (fun hm => h (List.mem_cons_of_mem _ hm))]
      rfl
    | ok s =>
      rw [show runLoop (EpOutcome.ok s :: rest) acc = runLoop rest (acc ++ [s]) from rfl]
      rw [ih (acc ++ [s]) (fun hm => h (List.mem_cons_of_mem _ hm))]
      simp [okSummaries]

/-! ### Grouping: the members of a chain group are the summaries with
that chain id, in order -/

theorem findMembers_addToGroup (g : List (ℤ × List Summary)) (cid : ℤ)
    (ep : Summary) (c : ℤ) :
    findMembers (addToGroup g cid ep) c =
      if c = cid then some (((findMembers g cid).getD []) ++ [ep])
      else findMembers g c := by
  induction g with
  | nil =>
    show findMembers [(cid, [ep])] c = _
    by_cases hc : c = cid
    · subst hc
      simp [findMembers]
    · have hc2 : ¬ cid = c := fun h => hc h.symm
      simp [findMembers, hc, hc2]
  | cons p rest ih =>
    obtain ⟨c0, ms⟩ := p
    by_cases h0 : c0 = cid
    · subst h0
      rw [show addToGroup ((c0, ms) :: rest) c0 ep = (c0, ms ++ [ep]) :: rest from by
        simp [addToGroup]]
      by_cases hc : c = c0
      · subst hc
        simp [findMembers]
      · have hc2 : ¬ c0 = c := fun h => hc h.symm
        simp [findMembers, hc, hc2]
    · rw [show addToGroup ((c0, ms) :: rest) cid ep
          = (c0, ms) :: addToGroup rest cid ep from by simp [addToGroup, h0]]
      by_cases hc : c0 = c
      · subst hc
        have hcc : ¬ c0 = cid := h0
        simp [findMembers, hcc]
      · simp [findMembers, hc, ih, h0]

theorem findMembers_foldl (eps : List Summary) :
    ∀ (acc : List (ℤ × List Summary)) (c : ℤ),
      findMembers (eps.foldl (fun g ep => addToGroup g ep.chainId ep) acc) c =
        match findMembers acc c with
        | some ms => some (ms ++ filterChain eps c)
        | none => if (filterChain eps c).isEmpty then none
                  else some (filterChain eps c) := by
  induction eps with
  | nil =>
    intro acc c
    cases h : findMembers acc c <;> simp [filterChain, h]
  | cons ep rest ih =>
    intro acc c
    rw [List.foldl_cons, ih]
    rw [findMembers_addToGroup]
    by_cases hc : c = ep.chainId
    · have hfc : filterChain (ep :: rest) c = ep :: filterChain rest c := by
        simp [filterChain, List.filter_cons, hc.symm]
      rw [if_pos hc, hfc]
      cases hacc : findMembers acc c with
      | none =>
        rw [hc] at hacc
        rw [hacc]
        simp
      | some ms =>
        rw [hc] at hacc
        rw [hacc]
        simp
    · have hc2 : ¬ ep.chainId = c := fun h => hc h.symm
      have hfc : filterChain (ep :: rest) c = filterChain rest c := by
        simp [filterChain, List.filter_cons, hc2]
      rw [if_neg hc, hfc]

theorem findMembers_rawGroups (eps : List Summary) (c : ℤ) :
    findMembers (rawGroups eps) c =
      if (filterChain eps c).isEmpty then none else some (filterChain eps c) := by
  have h := findMembers_foldl eps [] c
  rw [show findMembers [] c = none from rfl] at h
  exact h

theorem keysOf_addToGroup (g : List (ℤ × List Summary)) (cid : ℤ) (ep : Summary) :
    keysOf (addToGroup g cid ep) =
      if cid ∈ keysOf g then keysOf g else keysOf g ++ [cid] := by
  induction g with
  | nil => simp [addToGroup, keysOf]
  | cons p rest ih =>
    obtain ⟨c0, ms⟩ := p
    by_cases h0 : c0 = cid
    · subst h0
      rw [show addToGroup ((c0, ms) :: rest) c0 ep = (c0, ms ++ [ep]) :: rest from by
        simp [addToGroup]]
      simp [keysOf]
    · rw [show addToGroup ((c0, ms) :: rest) cid ep
          = (c0, ms) :: addToGroup rest cid ep from by simp [addToGroup, h0]]
      have h02 : ¬ cid = c0 := fun h => h0 h.symm
      by_cases hmem : cid ∈ keysOf rest
      · show c0 :: keysOf (addToGroup rest cid ep) = _
        rw [ih, if_pos hmem]
        have hin : cid ∈ keysOf ((c0, ms) :: rest) := by
          show cid ∈ c0 :: keysOf rest
          exact List.mem_cons_of_mem _ hmem
        rw [if_pos hin]
        rfl
      · show c0 :: keysOf (addToGroup rest cid ep) = _
        rw [ih, if_neg hmem]
        have hnotin : cid ∉ keysOf ((c0, ms) :: rest) := by
          show ¬ (cid ∈ c0 :: keysOf rest)
          simp [List.mem_cons, h02, hmem]
        rw [if_neg hnotin]
        show c0 :: (keysOf rest ++ [cid]) = (c0 :: keysOf rest) ++ [cid]
        simp

theorem nodup_keysOf_addToGroup (g : List (ℤ × List Summary)) (cid : ℤ)
    (ep : Summary) (h : (keysOf g).Nodup) : (keysOf (addToGroup g cid ep)).Nodup := by
  rw [keysOf_addToGroup]
  by_cases hmem : cid ∈ keysOf g
  · rwa [if_pos hmem]
  · rw [if_neg hmem]
    simp [List.nodup_append, h, hmem]

theorem nodup_keysOf_foldl (eps : List Summary) :
    ∀ (acc : List (ℤ × List Summary)), (keysOf acc).Nodup →
      (keysOf (eps.foldl (fun g ep => addToGroup g ep.chainId ep) acc)).Nodup := by
  induction eps with
  | nil => intro acc h; exact h
  | cons ep rest ih =>
    intro acc h
    exact ih _ (nodup_keysOf_addToGroup acc ep.chainId ep h)

theorem nodup_keysOf_rawGroups (eps : List Summary) : (keysOf (rawGroups eps)).Nodup :=
  nodup_keysOf_foldl eps [] (by simp [keysOf])

theorem findMembers_of_mem (g : List (ℤ × List Summary)) (c : ℤ) (ms : List Summary)
    (hnd : (keysOf g).Nodup) (hmem : (c, ms) ∈ g) : findMembers g c = some ms := by
  induction g with
  | nil => cases hmem
  | cons p rest ih =>
    obtain ⟨c0, ms0⟩ := p
    rcases List.mem_cons.mp hmem with heq | hmem2
    · cases heq
      simp [findMembers]
    · have hkey : c ∈ keysOf rest := List.mem_map.mpr ⟨(c, ms), hmem2, rfl⟩
      have hnd0 : (c0 :: keysOf rest).Nodup := hnd
      have hnd1 : (keysOf rest).Nodup := (List.nodup_cons.mp hnd0).2
      have hc0notin : c0 ∉ keysOf rest := (List.nodup_cons.mp hnd0).1
      have hc0 : ¬ c0 = c := by
        intro h
        exact hc0notin (h ▸ hkey)
      rw [show findMembers ((c0, ms0) :: rest) c
          = if c0 = c then some ms0 else findMembers rest c from rfl]
      rw [if_neg hc0]
      exact ih hnd1 hmem2

theorem mem_rawGroups_members (eps : List Summary) (c : ℤ) (ms : List Summary)
    (hmem : (c, ms) ∈ rawGroups eps) : ms = filterChain eps c := by
  have h1 := findMembers_of_mem _ c ms (nodup_keysOf_rawGroups eps) hmem
  rw [findMembers_rawGroups] at h1
  by_cases he : (filterChain eps c).isEmpty
  · rw [if_pos he] at h1; cases h1
  · rw [if_neg he] at h1
    exact (Option.some_inj.mp h1).symm

/-! ### The classifier annotation and the group consensus -/

theorem classifyEp_chainId (g t : ℚ) (ep : Summary) :
    (classifyEp g t ep).chainId = ep.chainId := rfl

theorem classifyEp_median (g t : ℚ) (ep : Summary) :
    (classifyEp g t ep).baseFeeMedianGwei = ep.baseFeeMedianGwei := rfl

theorem classifyEp_sampledBlocks (g t : ℚ) (ep : Summary) :
    (classifyEp g t ep).sampledBlocks = ep.sampledBlocks := rfl

theorem classifyEp_idem (g t : ℚ) (ep : Summary) :
    classifyEp g t (classifyEp g t ep) = classifyEp g t ep := rfl

theorem groupConsensus_map_classify (ms : List Summary) (g t : ℚ) :
    groupConsensus (ms.map (classifyEp g t)) = groupConsensus ms := by
  unfold groupConsensus
  rw [List.map_map]
  rfl

theorem groupConsensus_cases (ms : List Summary) :
    groupConsensus ms = 0 ∨ 0 < groupConsensus ms := by
  unfold groupConsensus
  by_cases he : ((ms.map (·.baseFeeMedianGwei)).filter (fun m => decide (0 < m))).isEmpty
  · left; rw [if_pos he]
  · right
    rw [if_neg he]
    apply pyMedian_pos
    · intro hnil
      rw [hnil] at he
      exact he rfl
    · intro x hx
      have := List.mem_filter.mp hx
      exact of_decide_eq_true this.2

theorem groupConsensus_nonneg (ms : List Summary) : 0 ≤ groupConsensus ms := by
  rcases groupConsensus_cases ms with h | h
  · rw [h]
  · exact le_of_lt h

/-! ### What one output group looks like -/

theorem group_member_spec (eps : List Summary) (tol : ℚ) (cid : ℤ) (grp : ChainGroup)
    (hmem : (cid, grp) ∈ group_by_chain eps tol) :
    grp.globalMedianBaseFeeGwei = pyRound 3 (groupConsensus (filterChain eps cid)) ∧
    grp.endpoints = (filterChain eps cid).map
      (classifyEp (groupConsensus (filterChain eps cid)) tol) := by
  unfold group_by_chain at hmem
  obtain ⟨p, hp, heq⟩ := List.mem_map.mp hmem
  obtain ⟨c0, ms⟩ := p
  dsimp only at heq
  cases heq
  have hms := mem_rawGroups_members eps cid ms hp
  constructor
  · show pyRound 3 (groupConsensus ms) = _
    rw [hms]
  · show ms.map (classifyEp (groupConsensus ms) tol) = _
    rw [hms]

theorem group_consensus_eq (eps : List Summary) (tol : ℚ) (cid : ℤ) (grp : ChainGroup)
    (hmem : (cid, grp) ∈ group_by_chain eps tol) :
    groupConsensus grp.endpoints = groupConsensus (filterChain eps cid) := by
  obtain ⟨-, h2⟩ := group_member_spec eps tol cid grp hmem
  rw [h2, groupConsensus_map_classify]

theorem group_global_median (eps : List Summary) (tol : ℚ) (cid : ℤ) (grp : ChainGroup)
    (hmem : (cid, grp) ∈ group_by_chain eps tol) :
    grp.globalMedianBaseFeeGwei = pyRound 3 (groupConsensus grp.endpoints) := by
  rw [group_consensus_eq eps tol cid grp hmem]
  exact (group_member_spec eps tol cid grp hmem).1

theorem group_endpoints_fields (eps : List Summary) (tol : ℚ) (cid : ℤ)
    (grp : ChainGroup) (hmem : (cid, grp) ∈ group_by_chain eps tol)
    (ep : Summary) (hep : ep ∈ grp.endpoints) :
    ep.deviationPct
        = pyRound 2 (rawDeviation ep.baseFeeMedianGwei (groupConsensus grp.endpoints)) ∧
    ep.isOutlier
        = decide (tol ≤ qAbs (rawDeviation ep.baseFeeMedianGwei (groupConsensus grp.endpoints))) := by
  have hc := group_consensus_eq eps tol cid grp hmem
  obtain ⟨-, h2⟩ := group_member_spec eps tol cid grp hmem
  rw [h2] at hep
  obtain ⟨ep0, hep0, rfl⟩ := List.mem_map.mp hep
  rw [hc]
  exact ⟨rfl, rfl⟩

/-! ### Re-running the classifier: the annotated list and regrouping -/

theorem addToGroup_mapGrps (F : Summary → Summary) (g : List (ℤ × List Summary))
    (cid : ℤ) (ep : Summary) :
    addToGroup (mapGrps F g) cid (F ep) = mapGrps F (addToGroup g cid ep) := by
  induction g with
  | nil => rfl
  | cons p rest ih =>
    obtain ⟨c0, ms⟩ := p
    show addToGroup ((c0, ms.map F) :: mapGrps F rest) cid (F ep) = _
    by_cases h0 : c0 = cid
    · subst h0
      rw [show addToGroup ((c0, ms.map F) :: mapGrps F rest) c0 (F ep)
          = (c0, ms.map F ++ [F ep]) :: mapGrps F rest from by simp [addToGroup]]
      rw [show addToGroup ((c0, ms) :: rest) c0 ep
          = (c0, ms ++ [ep]) :: rest from by simp [addToGroup]]
      show _ = (c0, (ms ++ [ep]).map F) :: mapGrps F rest
      rw [List.map_append]
      rfl
    · rw [show addToGroup ((c0, ms.map F) :: mapGrps F rest) cid (F ep)
          = (c0, ms.map F) :: addToGroup (mapGrps F rest) cid (F ep) from by
            simp [addToGroup, h0]]
      rw [show addToGroup ((c0, ms) :: rest) cid ep
          = (c0, ms) :: addToGroup rest cid ep from by simp [addToGroup, h0]]
      rw [ih]
      rfl

theorem foldl_mapGrps (F : Summary → Summary)
    (hF : ∀ ep, (F ep).chainId = ep.chainId) :
    ∀ (eps : List Summary) (g : List (ℤ × List Summary)),
      (eps.map F).foldl (fun g ep => addToGroup g ep.chainId ep) (mapGrps F g) =
        mapGrps F (eps.foldl (fun g ep => addToGroup g ep.chainId ep) g) := by
  intro eps
  induction eps with
  | nil => intro g; rfl
  | cons ep rest ih =>
    intro g
    rw [List.map_cons, List.foldl_cons, List.foldl_cons]
    rw [show addToGroup (mapGrps F g) (F ep).chainId (F ep)
        = addToGroup (mapGrps F g) ep.chainId (F ep) from by rw [hF ep]]
    rw [addToGroup_mapGrps, ih]

theorem rawGroups_map (F : Summary → Summary)
    (hF : ∀ ep, (F ep).chainId = ep.chainId) (eps : List Summary) :
    rawGroups (eps.map F) = mapGrps F (rawGroups eps) :=
  foldl_mapGrps F hF eps []

theorem filterChain_map (F : Summary → Summary)
    (hF : ∀ ep, (F ep).chainId = ep.chainId) (eps : List Summary) (c : ℤ) :
    filterChain (eps.map F) c = (filterChain eps c).map F := by
  unfold filterChain
  rw [List.filter_map]
  congr 1
  apply List.filter_congr
  intro x hx
  simp [Function.comp, hF]

theorem map_annotate_filterChain (eps : List Summary) (tol : ℚ) (c : ℤ) :
    (filterChain eps c).map (fun ep => classifyEp (consensusOf eps ep.chainId) tol ep)
      = (filterChain eps c).map (classifyEp (consensusOf eps c) tol) := by
  apply List.map_congr_left
  intro ep hep
  have hc : ep.chainId = c := by
    have := List.mem_filter.mp hep
    exact of_decide_eq_true this.2
  rw [hc]

theorem group_by_chain_annotateAll (eps : List Summary) (tol : ℚ) :
    group_by_chain (annotateAll eps tol) tol = group_by_chain eps tol := by
  have hF : ∀ ep, ((fun ep => classifyEp (consensusOf eps ep.chainId) tol ep) ep).chainId
      = ep.chainId := fun ep => rfl
  unfold group_by_chain annotateAll
  rw [rawGroups_map _ hF]
  unfold mapGrps
  rw [List.map_map]
  apply List.map_congr_left
  intro p hp
  obtain ⟨c, ms⟩ := p
  have hms := mem_rawGroups_members eps c ms hp
  simp only [Function.comp_apply]
  have h1 : ms.map (fun ep => classifyEp (consensusOf eps ep.chainId) tol ep)
      = ms.map (classifyEp (consensusOf eps c) tol) := by
    rw [hms]
    exact map_annotate_filterChain eps tol c
  rw [h1, groupConsensus_map_classify]
  have h2 : consensusOf eps c = groupConsensus ms := by rw [hms]; rfl
  rw [h2, List.map_map]
  have h3 : (classifyEp (groupConsensus ms) tol ∘ classifyEp (groupConsensus ms) tol)
      = classifyEp (groupConsensus ms) tol := funext fun ep => classifyEp_idem _ _ ep
  rw [h3]

/-! ### Facts about `analyze_endpoint` -/

theorem analyze_endpoint_sampledBlocks (e : Endpoint) (blocks step : ℕ) :
    (analyze_endpoint e blocks step).sampledBlocks
      = (sample_base_fees e blocks step).1.length := by
  show (sample_base_fees e blocks step).2.2.2 = _
  exact sample_base_fees_count e blocks step

theorem analyze_endpoint_stats_empty (e : Endpoint) (blocks step : ℕ)
    (h : (sample_base_fees e blocks step).1 = []) :
    (analyze_endpoint e blocks step).baseFeeMedianGwei = 0 ∧
    (analyze_endpoint e blocks step).baseFeeMinGwei = 0 ∧
    (analyze_endpoint e blocks step).baseFeeMaxGwei = 0 := by
  have he : (sample_base_fees e blocks step).1.isEmpty := by
    rw [h]; rfl
  refine ⟨?_, ?_, ?_⟩ <;>
  · show pyRound 3 (if (sample_base_fees e blocks step).1.isEmpty then 0 else _) = 0
    rw [if_pos he, pyRound_zero]

theorem analyze_endpoint_stats_nonempty (e : Endpoint) (blocks step : ℕ)
    (h : (sample_base_fees e blocks step).1 ≠ []) :
    (analyze_endpoint e blocks step).baseFeeMedianGwei
        = pyRound 3 (pyMedian (sample_base_fees e blocks step).1) ∧
    (analyze_endpoint e blocks step).baseFeeMinGwei
        = pyRound 3 (pyMin (sample_base_fees e blocks step).1) ∧
    (analyze_endpoint e blocks step).baseFeeMaxGwei
        = pyRound 3 (pyMax (sample_base_fees e blocks step).1) := by
  have he : ¬ (sample_base_fees e blocks step).1.isEmpty := by
    rwa [List.isEmpty_iff]
  refine ⟨?_, ?_, ?_⟩ <;>
  · show pyRound 3 (if (sample_base_fees e blocks step).1.isEmpty then 0 else _)
        = pyRound 3 _
    rw [if_neg he]

theorem analyze_endpoint_headFee (e : Endpoint) (blocks step : ℕ) :
    (analyze_endpoint e blocks step).headBaseFeeGwei
      = ((e.blockAt e.blockNumber).map
          (fun blk => weiToGwei (blk.baseFeePerGas.getD 0))).map (pyRound 3) := rfl

/-! ### Example endpoints used to instantiate the theorems -/

/-- C6: for positive `blocks` and `step` the sampler walks
`head, head - step, head - 2*step, …`, keeping exactly the numbers not
below `max 0 (head - blocks + 1)`; with `blocks = 10`, `step = 5`,
`head = 100` the visited list is `[100, 95]`. -/
theorem sampler_visits_spec (head blocks step : ℕ)
    (hb : 0 < blocks) (hs : 0 < step) :
    (∀ n, n ∈ visitedBlocks (head + 1 - blocks) step head ↔
      ((head + 1 - blocks) ≤ n ∧ ∃ k, n + k * step = head)) ∧
    (((head + 1 - blocks : ℕ) : ℤ) = max 0 ((head : ℤ) - blocks + 1)) ∧
    (∀ e : Endpoint, (sample_base_fees e blocks step).2.2.1
        = e.blockNumber + 1 - blocks) ∧
    visitedBlocks (100 + 1 - 10) 5 100 = [100, 95] := by
  refine ⟨fun n => visitedBlocks_mem _ step head hs n, ?_, fun e => rfl, by decide⟩
  omega

/-- Witness for C6 at `head = 100`, `blocks = 10`, `step = 5`. -/
theorem sampler_visits_spec_witness :
    visitedBlocks (100 + 1 - 10) 5 100 = [100, 95] :=
  (sampler_visits_spec 100 10 5 (by decide) (by decide)).2.2.2

/-- C7: whenever an endpoint summary has a positive sample count, its
reported min, median and max are ordered `min ≤ median ≤ max`; with a
zero sample count all three are 0. -/
theorem summary_stats_ordered (e : Endpoint) (blocks step : ℕ) :
    (0 < (analyze_endpoint e blocks step).sampledBlocks →
      (analyze_endpoint e blocks step).baseFeeMinGwei
          ≤ (analyze_endpoint e blocks step).baseFeeMedianGwei ∧
      (analyze_endpoint e blocks step).baseFeeMedianGwei
          ≤ (analyze_endpoint e blocks step).baseFeeMaxGwei) ∧
    ((analyze_endpoint e blocks step).sampledBlocks = 0 →
      (analyze_endpoint e blocks step).baseFeeMedianGwei = 0 ∧
      (analyze_endpoint e blocks step).baseFeeMinGwei = 0 ∧
      (analyze_endpoint e blocks step).baseFeeMaxGwei = 0) := by
  constructor
  · intro hpos
    rw [analyze_endpoint_sampledBlocks] at hpos
    have hne : (sample_base_fees e blocks step).1 ≠ [] := by
      intro h
      rw [h] at hpos
      simp at hpos
    obtain ⟨hm, hmin, hmax⟩ := analyze_endpoint_stats_nonempty e blocks step hne
    obtain ⟨hb1, hb2⟩ := pyMedian_mem_bounds _ hne
    rw [hm, hmin, hmax]
    exact ⟨pyRound_mono 3 hb1, pyRound_mono 3 hb2⟩
  · intro hzero
    rw [analyze_endpoint_sampledBlocks] at hzero
    exact analyze_endpoint_stats_empty e blocks step (List.length_eq_zero.mp hzero)

/-- Witness for C7: an endpoint with two samples, and one with none. -/
theorem summary_stats_ordered_witness :
    ((analyze_endpoint epA 4 2).baseFeeMinGwei
        ≤ (analyze_endpoint epA 4 2).baseFeeMedianGwei ∧
      (analyze_endpoint epA 4 2).baseFeeMedianGwei
        ≤ (analyze_endpoint epA 4 2).baseFeeMaxGwei) ∧
    ((analyze_endpoint epZero 4 2).baseFeeMedianGwei = 0 ∧
      (analyze_endpoint epZero 4 2).baseFeeMinGwei = 0 ∧
      (analyze_endpoint epZero 4 2).baseFeeMaxGwei = 0) :=
  ⟨(summary_stats_ordered epA 4 2).1 (by decide),
   (summary_stats_ordered epZero 4 2).2 (by decide)⟩

theorem weiToGwei_zero : weiToGwei 0 = 0 := by decide

/-- C10: the reported head-block fee is `None` exactly when the head
fetch raises; a successful fetch of a block with an absent or zero fee
field reports `0.0`. -/
theorem head_fee_null_iff (e : Endpoint) (blocks step : ℕ) :
    ((analyze_endpoint e blocks step).headBaseFeeGwei = none ↔
      e.blockAt e.blockNumber = none) ∧
    (∀ blk, e.blockAt e.blockNumber = some blk →
      (blk.baseFeePerGas = none ∨ blk.baseFeePerGas = some 0) →
      (analyze_endpoint e blocks step).headBaseFeeGwei = some 0) := by
  constructor
  · rw [analyze_endpoint_headFee]
    cases h : e.blockAt e.blockNumber <;> simp
  · intro blk hblk hfee
    rw [analyze_endpoint_headFee, hblk]
    have hz : blk.baseFeePerGas.getD 0 = 0 := by
      rcases hfee with h | h <;> rw [h] <;> rfl
    show some (pyRound 3 (weiToGwei (blk.baseFeePerGas.getD 0))) = some 0
    rw [hz, weiToGwei_zero, pyRound_zero]

/-- Witness for C10: an endpoint whose head block has no fee field
reports a head fee of `0.0`. -/
theorem head_fee_null_iff_witness :
    (analyze_endpoint epZero 4 2).headBaseFeeGwei = some 0 :=
  (head_fee_null_iff epZero 4 2).2 { baseFeePerGas := none } (by decide) (by decide)

/-- C2 (amended): the run is rejected as a configuration error exactly
when `blocks ≤ 0` or `step ≤ 0`; the check runs before the endpoint
list is even consulted, but a negative `tolerancePct` is not part of
it. -/
theorem config_rejection_iff (blocks step : ℤ) (tol : ℚ) (rpcs : List EpOutcome) :
    runMain blocks step tol rpcs = RunResult.configErr ↔ (blocks ≤ 0 ∨ step ≤ 0) := by
  unfold runMain
  by_cases h : blocks ≤ 0 ∨ step ≤ 0
  · rw [if_pos h]
    simp [h]
  · rw [if_neg h]
    simp only [h, iff_false]
    by_cases he : rpcs.isEmpty
    · rw [if_pos he]
      intro hc
      exact RunResult.noConfusion hc
    · rw [if_neg he]
      cases runLoop rpcs [] with
      | none => intro hc; exact RunResult.noConfusion hc
      | some eps =>
        cases eps with
        | nil => intro hc; exact RunResult.noConfusion hc
        | cons s rest => intro hc; exact RunResult.noConfusion hc

/-- Counterexample to C2 as stated: a negative tolerance (here `-1`)
with valid `blocks`/`step` is not rejected — the run proceeds and
produces a report. -/
theorem config_negative_tolerance_cex :
    runMain 5 1 (-1) [EpOutcome.ok sA] ≠ RunResult.configErr ∧
    runMain 5 1 (-1) [EpOutcome.ok sA]
      = RunResult.ok (group_by_chain [sA] (-1)) := by decide

/-- C1 (amended): with a valid configuration and a nonempty endpoint
list, an endpoint that fails during analysis with an ordinary error is
skipped and the run continues (exiting with the hard failure only when
no endpoint yields a summary) — but an endpoint that fails the initial
connectivity check aborts the entire run, whatever the other
endpoints would have produced. -/
theorem endpoint_failure_handling (blocks step : ℤ) (tol : ℚ)
    (rpcs : List EpOutcome) (h1 : 0 < blocks) (h2 : 0 < step) (h3 : rpcs ≠ []) :
    (EpOutcome.connectFail ∈ rpcs →
      runMain blocks step tol rpcs = RunResult.aborted) ∧
    (EpOutcome.connectFail ∉ rpcs →
      runMain blocks step tol rpcs =
        if okSummaries rpcs = [] then RunResult.allFailed
        else RunResult.ok (group_by_chain (okSummaries rpcs) tol)) := by
  have hcond : ¬ (blocks ≤ 0 ∨ step ≤ 0) := by omega
  have hne : ¬ rpcs.isEmpty := by
    rw [List.isEmpty_iff]
    exact h3
  unfold runMain
  rw [if_neg hcond, if_neg hne]
  constructor
  · intro hmem
    rw [runLoop_eq_none rpcs [] hmem]
  · intro hnot
    rw [runLoop_eq_some rpcs [] hnot, List.nil_append]
    cases hok : okSummaries rpcs with
    | nil => rw [if_pos rfl]
    | cons s rest => rw [if_neg (by simp)]

/-- Witness for C1 (amended): one endpoint errors during analysis, the
other succeeds; the run continues and reports the surviving summary. -/
theorem endpoint_failure_handling_witness :
    runMain 40 4 30 [EpOutcome.analyzeFail, EpOutcome.ok sA]
      = if okSummaries [EpOutcome.analyzeFail, EpOutcome.ok sA] = []
        then RunResult.allFailed
        else RunResult.ok
          (group_by_chain (okSummaries [EpOutcome.analyzeFail, EpOutcome.ok sA]) 30) :=
  (endpoint_failure_handling 40 4 30 [EpOutcome.analyzeFail, EpOutcome.ok sA]
    (by decide) (by decide) (by decide)).2 (by decide)

/-- Counterexample to C1 as stated: a single unreachable endpoint
(`is_connected()` false) aborts the whole run even though a second,
healthy endpoint is configured; the run does not continue with the
remaining endpoints. -/
theorem connect_failure_cex :
    runMain 40 4 30 [EpOutcome.connectFail, EpOutcome.ok sA] = RunResult.aborted ∧
    RunResult.aborted ≠ RunResult.ok (group_by_chain [sA] 30) := by decide

/-! ### Concrete runs used by the group-level theorems -/

/-! ### The claims about the classifier -/

/-- C3 (amended): for every annotated member, `isOutlier` is true iff
`tolerancePct ≤ |dev|` where `dev` is the unrounded deviation — whose
2-decimal rounding is the reported `deviationPct`; the comparison is
inclusive, but it reads the unrounded value, which can disagree with
the reported field. -/
theorem outlier_unrounded_threshold (eps : List Summary) (tol : ℚ) (cid : ℤ)
    (grp : ChainGroup) (hmem : (cid, grp) ∈ group_by_chain eps tol)
    (ep : Summary) (hep : ep ∈ grp.endpoints) :
    (ep.isOutlier = true ↔
      tol ≤ |rawDeviation ep.baseFeeMedianGwei (groupConsensus grp.endpoints)|) ∧
    ep.deviationPct
      = pyRound 2 (rawDeviation ep.baseFeeMedianGwei (groupConsensus grp.endpoints)) := by
  obtain ⟨hdev, hout⟩ := group_endpoints_fields eps tol cid grp hmem ep hep
  refine ⟨?_, hdev⟩
  rw [hout, qAbs_eq]
  exact decide_eq_true_iff

/-- Witness for C3 (amended), at the first member of the `eps3` run. -/
theorem outlier_unrounded_threshold_witness :
    ((mem3 0).isOutlier = true ↔
      (30 : ℚ) ≤ |rawDeviation (mem3 0).baseFeeMedianGwei (groupConsensus grp3.endpoints)|) ∧
    (mem3 0).deviationPct
      = pyRound 2 (rawDeviation (mem3 0).baseFeeMedianGwei (groupConsensus grp3.endpoints)) :=
  outlier_unrounded_threshold eps3 30 1 grp3 (by decide) (mem3 0) (by decide)

/-- Counterexample to C3 as stated: in the `eps3` run at tolerance 30,
the third member's reported `deviationPct` is exactly `30.0` (so
`|deviationPct| ≥ tolerancePct` holds), yet `isOutlier` is false,
because the unrounded deviation is `29.996`. -/
theorem outlier_rounded_cex :
    (1, grp3) ∈ group_by_chain eps3 30 ∧
    mem3 2 ∈ grp3.endpoints ∧
    (mem3 2).deviationPct = 30 ∧
    (30 : ℚ) ≤ qAbs (mem3 2).deviationPct ∧
    (mem3 2).isOutlier = false := by decide

theorem rawDeviation_zero_median (c : ℚ) : rawDeviation 0 c = 0 := by
  unfold rawDeviation
  rw [if_neg]
  rintro ⟨-, h⟩
  exact lt_irrefl 0 h

theorem qAbs_zero : qAbs 0 = 0 := by decide

/-- C4 (amended): an endpoint whose window yields no usable observation
reports median, min and max all `0`; inside its chain group it gets
`deviationPct = 0` whatever the other members hold — and `isOutlier`
is false exactly when the tolerance is positive (`tolerancePct ≤ 0`
flags it, `|0| ≥ tolerancePct` being inclusive). -/
theorem zero_sample_summary :
    (∀ (e : Endpoint) (blocks step : ℕ),
      (analyze_endpoint e blocks step).sampledBlocks = 0 →
        (analyze_endpoint e blocks step).baseFeeMedianGwei = 0 ∧
        (analyze_endpoint e blocks step).baseFeeMinGwei = 0 ∧
        (analyze_endpoint e blocks step).baseFeeMaxGwei = 0) ∧
    (∀ (eps : List Summary) (tol : ℚ) (cid : ℤ) (grp : ChainGroup),
      (cid, grp) ∈ group_by_chain eps tol →
      ∀ ep ∈ grp.endpoints, ep.baseFeeMedianGwei = 0 →
        ep.deviationPct = 0 ∧ (ep.isOutlier = true ↔ tol ≤ 0)) := by
  constructor
  · intro e blocks step hz
    rw [analyze_endpoint_sampledBlocks] at hz
    exact analyze_endpoint_stats_empty e blocks step (List.length_eq_zero.mp hz)
  · intro eps tol cid grp hmem ep hep hzm
    obtain ⟨hdev, hout⟩ := group_endpoints_fields eps tol cid grp hmem ep hep
    rw [hzm, rawDeviation_zero_median] at hdev hout
    constructor
    · rw [hdev, pyRound_zero]
    · rw [hout, qAbs_zero]
      exact decide_eq_true_iff

/-- Witness for C4 (amended): the zero-sample endpoint of the `eps4`
run at tolerance 30. -/
theorem zero_sample_summary_witness :
    ((analyze_endpoint epZero 4 2).baseFeeMedianGwei = 0 ∧
      (analyze_endpoint epZero 4 2).baseFeeMinGwei = 0 ∧
      (analyze_endpoint epZero 4 2).baseFeeMaxGwei = 0) ∧
    ((mem4 1).deviationPct = 0 ∧ ((mem4 1).isOutlier = true ↔ (30 : ℚ) ≤ 0)) :=
  ⟨zero_sample_summary.1 epZero 4 2 (by decide),
   zero_sample_summary.2 eps4 30 1 grp4 (by decide) (mem4 1) (by decide) (by decide)⟩

/-- Counterexample to C4 as stated: at tolerance `0` (an admissible,
non-negative configuration) the zero-sample endpoint is flagged an
outlier, so `isOutlier = false` does not hold for every tolerance. -/
theorem zero_sample_outlier_cex :
    (analyze_endpoint epZero 4 2).sampledBlocks = 0 ∧
    (1, grp4z) ∈ group_by_chain eps4 0 ∧
    mem4z 1 ∈ grp4z.endpoints ∧
    (mem4z 1).sampledBlocks = 0 ∧
    (mem4z 1).deviationPct = 0 ∧
    (mem4z 1).isOutlier = true := by decide

/-- C5 (amended): the reported group consensus equals the median of the
member medians after excluding the zero-median members — rounded to 3
decimal places (and `0` when no member qualifies, since
`pyRound 3 0 = 0`). -/
theorem consensus_is_rounded_median (eps : List Summary) (tol : ℚ) (cid : ℤ)
    (grp : ChainGroup) (hmem : (cid, grp) ∈ group_by_chain eps tol)
    (hnn : ∀ ep ∈ grp.endpoints, 0 ≤ ep.baseFeeMedianGwei) :
    grp.globalMedianBaseFeeGwei =
      pyRound 3
        (if ((grp.endpoints.map (·.baseFeeMedianGwei)).filter
              (fun m => decide (m ≠ 0))).isEmpty
         then 0
         else pyMedian ((grp.endpoints.map (·.baseFeeMedianGwei)).filter
              (fun m => decide (m ≠ 0)))) := by
  rw [group_global_median eps tol cid grp hmem]
  unfold groupConsensus
  have hfil : (grp.endpoints.map (·.baseFeeMedianGwei)).filter (fun m => decide (0 < m))
      = (grp.endpoints.map (·.baseFeeMedianGwei)).filter (fun m => decide (m ≠ 0)) := by
    apply List.filter_congr
    intro m hm
    obtain ⟨ep, hep, rfl⟩ := List.mem_map.mp hm
    have h0 : 0 ≤ ep.baseFeeMedianGwei := hnn ep hep
    rw [decide_eq_decide]
    constructor
    · intro h; exact ne_of_gt h
    · intro h; exact lt_of_le_of_ne h0 (Ne.symm h)
  rw [hfil]

/-- Witness for C5 (amended) at the `eps3` run. -/
theorem consensus_is_rounded_median_witness :
    grp3.globalMedianBaseFeeGwei =
      pyRound 3
        (if ((grp3.endpoints.map (·.baseFeeMedianGwei)).filter
              (fun m => decide (m ≠ 0))).isEmpty
         then 0
         else pyMedian ((grp3.endpoints.map (·.baseFeeMedianGwei)).filter
              (fun m => decide (m ≠ 0)))) :=
  consensus_is_rounded_median eps3 30 1 grp3 (by decide) (by decide)

/-- Counterexample to C5 as stated: with member medians `0.001` and
`0.002` gwei the reported consensus is `0.002`, while the median of
the nonzero member medians is `0.0015` — the stored field is the
3-decimal rounding of the median, not the median itself. -/
theorem consensus_rounding_cex :
    (1, grp5) ∈ group_by_chain eps5 30 ∧
    grp5.globalMedianBaseFeeGwei = mkRat 2 1000 ∧
    pyMedian ((grp5.endpoints.map (·.baseFeeMedianGwei)).filter
        (fun m => decide (m ≠ 0))) = mkRat 3 2000 ∧
    grp5.globalMedianBaseFeeGwei ≠
      pyMedian ((grp5.endpoints.map (·.baseFeeMedianGwei)).filter
        (fun m => decide (m ≠ 0))) := by decide

theorem pct_diff_eq (a b : ℚ) (hb : b ≠ 0) : pct_diff a b = (a - b) / b * 100 := by
  unfold pct_diff
  rw [if_neg hb, qMul_eq, qDiv_eq, qSub_eq]

/-- C8: a member's deviation is `(memberMedian − consensus) / consensus
× 100` (then display-rounded to 2 decimals) when both the member median
and the consensus are nonzero, and exactly `0` when either is zero. -/
theorem deviation_formula (eps : List Summary) (tol : ℚ) (cid : ℤ)
    (grp : ChainGroup) (hmem : (cid, grp) ∈ group_by_chain eps tol)
    (ep : Summary) (hep : ep ∈ grp.endpoints) (hnn : 0 ≤ ep.baseFeeMedianGwei) :
    (ep.baseFeeMedianGwei ≠ 0 ∧ groupConsensus grp.endpoints ≠ 0 →
      ep.deviationPct = pyRound 2
        ((ep.baseFeeMedianGwei - groupConsensus grp.endpoints)
          / groupConsensus grp.endpoints * 100)) ∧
    (ep.baseFeeMedianGwei = 0 ∨ groupConsensus grp.endpoints = 0 →
      ep.deviationPct = 0) := by
  obtain ⟨hdev, -⟩ := group_endpoints_fields eps tol cid grp hmem ep hep
  constructor
  · rintro ⟨hm, hc⟩
    have hm0 : 0 < ep.baseFeeMedianGwei := lt_of_le_of_ne hnn (Ne.symm hm)
    have hc0 : 0 < groupConsensus grp.endpoints := by
      rcases groupConsensus_cases grp.endpoints with h | h
      · exact absurd h hc
      · exact h
    rw [hdev]
    unfold rawDeviation
    rw [if_pos ⟨hc0, hm0⟩, pct_diff_eq _ _ hc]
  · rintro (hm | hc)
    · rw [hdev, hm, rawDeviation_zero_median, pyRound_zero]
    · rw [hdev]
      unfold rawDeviation
      rw [hc, if_neg (by rintro ⟨h, -⟩; exact lt_irrefl 0 h), pyRound_zero]

/-- Witness for C8 at the third member of the `eps3` run (median
`129.996`, consensus `100`). -/
theorem deviation_formula_witness :
    (mem3 2).deviationPct = pyRound 2
      (((mem3 2).baseFeeMedianGwei - groupConsensus grp3.endpoints)
        / groupConsensus grp3.endpoints * 100) :=
  (deviation_formula eps3 30 1 grp3 (by decide) (mem3 2) (by decide) (by decide)).1
    (by decide)

/-- C9: the classifier pass is a pure function of the summaries' chain
ids and medians: running `group_by_chain` again over the summaries as
the first run left them (`annotateAll` — the in-place annotation, in
original order, certified by the second conjunct) reproduces the first
run's output exactly. -/
theorem classifier_idempotent (eps : List Summary) (tol : ℚ) :
    group_by_chain (annotateAll eps tol) tol = group_by_chain eps tol ∧
    (∀ cid grp, (cid, grp) ∈ group_by_chain eps tol →
      grp.endpoints = filterChain (annotateAll eps tol) cid) := by
  constructor
  · exact group_by_chain_annotateAll eps tol
  · intro cid grp hmem
    obtain ⟨-, h2⟩ := group_member_spec eps tol cid grp hmem
    rw [h2]
    rw [show annotateAll eps tol
        = eps.map (fun ep => classifyEp (consensusOf eps ep.chainId) tol ep) from rfl]
    rw [filterChain_map (fun ep => classifyEp (consensusOf eps ep.chainId) tol ep)
        (fun ep => rfl), map_annotate_filterChain]
    rfl

/-- Witness for C9 at the `eps3` run. -/
theorem classifier_idempotent_witness :
    group_by_chain (annotateAll eps3 30) 30 = group_by_chain eps3 30 ∧
    grp3.endpoints = filterChain (annotateAll eps3 30) 1 :=
  ⟨(classifier_idempotent eps3 30).1,
   (classifier_idempotent eps3 30).2 1 grp3 (by decide)⟩
